import Mathlib

/-!
Verification of the bit-field reader/encoder of the geetools repository
(the BitReader class demonstrated in src/notebooks/bitreader/BitReader.ipynb).

The implementation module itself (geetools/bitreader.py) is not part of the
source tree; only its demonstration notebook, with recorded outputs, is.
The definitions below are therefore modelled from the natural-language
specification (spec.md, sections 3 and 4.1), checked against every concrete
behaviour the notebook records: the per-label info table, decode(204),
match(204, ...), encode(...), the first 100 values of encodeOne and
encodeAnd, and the rendering getBin(204).
-/

deriving instance DecidableEq for Except

namespace Geetools

/-- Modelled from the spec: a BitGroupSpec, one contiguous group of bits
inside a fixed-width unsigned integer.  The field low is the least
significant bit index, high the most significant (inclusive), and labels
maps each raw (shifted and masked) integer value of the group to its
category name. -/
structure BitGroup where
  low : Nat
  high : Nat
  labels : List (Nat × String)
deriving DecidableEq

/-- Number of bits of the group: high - low + 1. -/
def BitGroup.bit_length (g : BitGroup) : Nat := g.high - g.low + 1

/-- Mask of the group, as in the spec: (1 << bitLength) - 1. -/
def BitGroup.mask (g : BitGroup) : Nat := (1 <<< g.bit_length) - 1

/-- Raw value of the group inside a full integer: (value >> shiftAmount) & mask. -/
def BitGroup.extract (g : BitGroup) (v : Nat) : Nat := (v >>> g.low) &&& g.mask

/-- Label registered for a raw value of the group, if any. -/
def BitGroup.rawLabel (g : BitGroup) (raw : Nat) : Option String :=
  (g.labels.find? (fun p => p.1 == raw)).map Prod.snd

/-- Raw value registered for a label in the group, if any. -/
def BitGroup.findRaw (g : BitGroup) (L : String) : Option Nat :=
  (g.labels.find? (fun p => p.2 == L)).map Prod.fst

/-- Two bit groups occupy disjoint ranges of bit positions. -/
def BitGroup.Disj (a b : BitGroup) : Prop := a.high < b.low ∨ b.high < a.low

/-- Construction-time validation of one group, from the spec: the range is
well formed and lies inside the total width, and every raw key fits in the
group (keys are dictionary keys in the source, hence pairwise distinct). -/
def BitGroup.WF (w : Nat) (g : BitGroup) : Prop :=
  g.low ≤ g.high ∧ g.high < w ∧
  (∀ p ∈ g.labels, p.1 ≤ g.mask) ∧
  (g.labels.map Prod.fst).Nodup

instance (w : Nat) (g : BitGroup) : Decidable (g.WF w) := by
  unfold BitGroup.WF
  infer_instance

instance (a b : BitGroup) : Decidable (a.Disj b) := by
  unfold BitGroup.Disj
  infer_instance

/-- Error taxonomy of the codec, from the spec, section 7. -/
inductive CodecError where
  | unknownLabel
  | conflictingLabels
  | valueOutOfRange
deriving DecidableEq

/-- Modelled from the spec: the CodecTable of a BitReader, a fixed total
bit width plus the parsed ordered collection of bit groups.  The source
class is BitReader(options, bit_length); the range-string keys of options
(such as a key naming bits zero to one) are parsed at the constructor
boundary into the low and high fields of each group. -/
structure BitReader where
  bit_length : Nat
  groups : List BitGroup
deriving DecidableEq

/-- Largest encodable value, reader.max in the source notebook. -/
def BitReader.max (t : BitReader) : Nat := (1 <<< t.bit_length) - 1

/-- All labels registered in the table, in table order. -/
def BitReader.allLabels (t : BitReader) : List String :=
  t.groups.flatMap (fun g => g.labels.map Prod.snd)

/-- Construction-time validation of the whole table, from the spec: every
group is well formed for the width, groups occupy pairwise disjoint bit
ranges, and no label repeats anywhere in the table. -/
def BitReader.WF (t : BitReader) : Prop :=
  (∀ g ∈ t.groups, g.WF t.bit_length) ∧
  t.groups.Pairwise BitGroup.Disj ∧
  t.allLabels.Nodup

instance (t : BitReader) : Decidable t.WF := by
  unfold BitReader.WF
  infer_instance

/-- Decode without the range check: for each group extract the raw value
and collect the label registered for it, in table order. -/
def BitReader.decodeRaw (t : BitReader) (v : Nat) : List String :=
  t.groups.filterMap (fun g => g.rawLabel (g.extract v))

/-- Decode with the range check of the spec: values above max fail. -/
def BitReader.decode (t : BitReader) (v : Nat) : Except CodecError (List String) :=
  if v ≤ t.max then .ok (t.decodeRaw v) else .error .valueOutOfRange

/-- Lookup of a label across the table: the first group carrying it,
together with the raw value it is registered for. -/
def BitReader.findLabel (t : BitReader) (L : String) : Option (BitGroup × Nat) :=
  t.groups.findSome? (fun g => (g.findRaw L).map (fun r => (g, r)))

/-- Exclusive encode of the spec: the single integer with only this label
set, rawValue << shiftAmount, every other group left at zero. -/
def BitReader.encode (t : BitReader) (L : String) : Except CodecError Nat :=
  match t.findLabel L with
  | none => .error .unknownLabel
  | some (g, r) => .ok (r <<< g.low)

/-- EncodeAll of the spec (encodeOne in the source): every integer in the
range of the table whose group bits equal the raw value of the label, in
ascending order.  The spec allows this reference formulation by filtering
the full range at small widths. -/
def BitReader.encodeOne (t : BitReader) (L : String) : Except CodecError (List Nat) :=
  match t.findLabel L with
  | none => .error .unknownLabel
  | some (g, r) =>
    .ok ((List.range (1 <<< t.bit_length)).filter (fun v => g.extract v == r))

/-- Match of the spec (the method named match in the source): whether the
value carries the label, an unknown label being an error rather than a
plain false. -/
def BitReader.matchValue (t : BitReader) (v : Nat) (L : String) : Except CodecError Bool :=
  match t.findLabel L with
  | none => .error .unknownLabel
  | some (g, r) =>
    if v ≤ t.max then .ok (g.extract v == r) else .error .valueOutOfRange

/-- EncodeIntersection of the spec (encodeAnd in the source): every integer
whose bits match the raw values of both labels at once; two labels of one
group with different raw values cannot coexist. -/
def BitReader.encodeAnd (t : BitReader) (a b : String) : Except CodecError (List Nat) :=
  match t.findLabel a, t.findLabel b with
  | none, _ => .error .unknownLabel
  | _, none => .error .unknownLabel
  | some (ga, ra), some (gb, rb) =>
    if ga = gb ∧ ra ≠ rb then .error .conflictingLabels
    else .ok ((List.range (1 <<< t.bit_length)).filter
      (fun v => ga.extract v == ra && gb.extract v == rb))

/-- Binary rendering of a value (getBin in the source).  Modelled from the
spec amended by the recorded notebook output: the notebook shows
getBin(204) printing the eight characters 11001100 on the 16-bit reader,
so the rendering is the minimal binary form of the value, most significant
bit first, with no zero padding to the full width.  Values above max fail
as the spec prescribes. -/
def BitReader.getBin (t : BitReader) (v : Nat) : Except CodecError String :=
  if v ≤ t.max then .ok ⟨Nat.toDigits 2 v⟩ else .error .valueOutOfRange

/-- Per-label introspection table (reader.info in the source): for every
label, the bit length of its group, the left shift of its group, and the
raw (shifted) value it is registered for. -/
def BitReader.info (t : BitReader) : List (String × Nat × Nat × Nat) :=
  t.groups.flatMap (fun g => g.labels.map (fun p => (p.2, g.bit_length, g.low, p.1)))

/-- Decoded labels paired with the shift amount of the group each one came
from, used to state in which order decodeRaw lists its results. -/
def BitReader.decodePairs (t : BitReader) (v : Nat) : List (Nat × String) :=
  t.groups.filterMap (fun g => (g.rawLabel (g.extract v)).map (fun L => (g.low, L)))

/-- Auxiliary constructor used by the counting argument for encodeOne and
encodeAnd: insert a fixed field of width B (in the sense of a divisor) with
value r at divisor position A into the packed remainder k. -/
def insertF (A B r k : Nat) : Nat := k % A + A * r + A * B * (k / A)

/-- Group of bits 0 to 1 of the notebook example, the cloud state. -/
def g01 : BitGroup := { low := 0, high := 1, labels := [(0, "clear"), (1, "cloud"), (2, "mix")] }

/-- Group holding bit 2 of the notebook example, the cloud shadow flag. -/
def g2 : BitGroup := { low := 2, high := 2, labels := [(0, "no_shadow"), (1, "shadow")] }

/-- Group of bits 6 to 7 of the notebook example. -/
def g67 : BitGroup :=
  { low := 6, high := 7, labels := [(0, "climatology"), (1, "low"), (2, "average"), (3, "high")] }

/-- The 16-bit example table of the notebook: MOD09 state1km groups for
cloud state (bits 0 to 1), cloud shadow (bit 2) and a two-bit flag at
bits 6 to 7, over a total width of 16 bits. -/
def mod09 : BitReader where
  bit_length := 16
  groups := [g01, g2, g67]

/-! Arithmetic readings of the bit operations. -/

/-- Bitwise and with a low mask is reduction modulo a power of two. -/
theorem and_two_pow_sub_one (x n : Nat) : x &&& (2 ^ n - 1) = x % 2 ^ n := by
  have h1 : ∀ i, (x &&& (2 ^ n - 1)).testBit i = (x % 2 ^ n).testBit i := by
    intro i
    rw [Nat.testBit_land, Nat.testBit_mod_two_pow, Nat.testBit_two_pow_sub_one]
    cases h : x.testBit i <;> simp [Bool.and_comm]
  exact Nat.eq_of_testBit_eq h1

/-- The shift and mask of a group, written with division and remainder. -/
theorem BitGroup.extract_eq (g : BitGroup) (v : Nat) :
    g.extract v = v / 2 ^ g.low % 2 ^ g.bit_length := by
  rw [BitGroup.extract, BitGroup.mask, Nat.one_shiftLeft, and_two_pow_sub_one,
    Nat.shiftRight_eq_div_pow]

/-- Extracting the own group of an exclusively encoded raw value returns it. -/
theorem BitGroup.extract_shift_self (g : BitGroup) (r : Nat) (hr : r < 2 ^ g.bit_length) :
    g.extract (r <<< g.low) = r := by
  rw [BitGroup.extract_eq, Nat.shiftLeft_eq,
    Nat.mul_div_cancel r (Nat.pos_pow_of_pos g.low (by omega)), Nat.mod_eq_of_lt hr]

/-- Extracting any disjoint group of an exclusively encoded raw value gives
zero: the encoded integer has bits only inside the own group. -/
theorem BitGroup.extract_shift_disjoint (g g' : BitGroup) (r : Nat)
    (hr : r < 2 ^ g.bit_length) (hg : g.low ≤ g.high) (hg' : g'.low ≤ g'.high)
    (hd : g.Disj g') :
    g'.extract (r <<< g.low) = 0 := by
  rw [BitGroup.extract_eq, Nat.shiftLeft_eq]
  rcases hd with h | h
  · -- the own group lies entirely below the other one
    have hle : g.low + g.bit_length ≤ g'.low := by
      unfold BitGroup.bit_length
      omega
    have hsplit : 2 ^ g'.low = 2 ^ g.low * 2 ^ (g'.low - g.low) := by
      rw [← pow_add]
      congr 1
      omega
    have hdiv : r * 2 ^ g.low / 2 ^ g'.low = 0 := by
      rw [hsplit, ← Nat.div_div_eq_div_mul, Nat.mul_div_cancel r
        (Nat.pos_pow_of_pos g.low (by omega))]
      exact Nat.div_eq_of_lt (lt_of_lt_of_le hr (Nat.pow_le_pow_right (by omega) (by omega)))
    rw [hdiv, Nat.zero_mod]
  · -- the own group lies entirely above the other one
    have hle : g'.low + g'.bit_length ≤ g.low := by
      unfold BitGroup.bit_length
      omega
    have hsplit : r * 2 ^ g.low = r * 2 ^ (g.low - g'.low) * 2 ^ g'.low := by
      rw [Nat.mul_assoc, ← pow_add]
      congr 2
      omega
    rw [hsplit, Nat.mul_div_cancel _ (Nat.pos_pow_of_pos g'.low (by omega))]
    exact Nat.dvd_iff_mod_eq_zero.mp (Dvd.dvd.mul_left (pow_dvd_pow 2 (by omega)) r)

/-! Lookup lemmas over the label tables. -/

/-- With pairwise distinct raw keys, a raw value determines its label. -/
theorem key_unique {l : List (Nat × String)} (hnd : (l.map Prod.fst).Nodup)
    {a : Nat} {b c : String} (h1 : (a, b) ∈ l) (h2 : (a, c) ∈ l) : b = c := by
  induction l with
  | nil => cases h1
  | cons x xs ih =>
    rw [List.map_cons, List.nodup_cons] at hnd
    rcases List.mem_cons.mp h1 with h1 | h1 <;> rcases List.mem_cons.mp h2 with h2 | h2
    · exact (Prod.ext_iff.mp (h1.trans h2.symm)).2
    · exact absurd (List.mem_map.mpr ⟨(a, c), h2, by rw [← h1]⟩) hnd.1
    · exact absurd (List.mem_map.mpr ⟨(a, b), h1, by rw [← h2]⟩) hnd.1
    · exact ih hnd.2 h1 h2

/-- With pairwise distinct labels, a label determines its raw value. -/
theorem val_unique {l : List (Nat × String)} (hnd : (l.map Prod.snd).Nodup)
    {a a' : Nat} {b : String} (h1 : (a, b) ∈ l) (h2 : (a', b) ∈ l) : a = a' := by
  induction l with
  | nil => cases h1
  | cons x xs ih =>
    rw [List.map_cons, List.nodup_cons] at hnd
    rcases List.mem_cons.mp h1 with h1 | h1 <;> rcases List.mem_cons.mp h2 with h2 | h2
    · exact (Prod.ext_iff.mp (h1.trans h2.symm)).1
    · exact absurd (List.mem_map.mpr ⟨(a', b), h2, by rw [← h1]⟩) hnd.1
    · exact absurd (List.mem_map.mpr ⟨(a, b), h1, by rw [← h2]⟩) hnd.1
    · exact ih hnd.2 h1 h2

/-- Raw-to-label lookup succeeds exactly on registered pairs, once the raw
keys of the group are pairwise distinct. -/
theorem BitGroup.rawLabel_eq_some (g : BitGroup) (hnd : (g.labels.map Prod.fst).Nodup)
    (raw : Nat) (L : String) : g.rawLabel raw = some L ↔ (raw, L) ∈ g.labels := by
  constructor
  · intro h
    rw [BitGroup.rawLabel] at h
    rcases Option.map_eq_some'.mp h with ⟨p, hp, hsnd⟩
    have hmem := List.mem_of_find?_eq_some hp
    have hfst : p.1 = raw := by simpa using List.find?_some hp
    rw [← hsnd, ← hfst]
    exact hmem
  · intro h
    rw [BitGroup.rawLabel]
    have hsome : (g.labels.find? (fun p => p.1 == raw)).isSome := by
      rw [List.find?_isSome]
      exact ⟨(raw, L), h, by simp⟩
    rcases Option.isSome_iff_exists.mp hsome with ⟨p, hp⟩
    have hmem := List.mem_of_find?_eq_some hp
    have hfst : p.1 = raw := by simpa using List.find?_some hp
    have hsnd : p.2 = L := key_unique hnd (hfst ▸ hmem) h
    rw [hp]
    simp [hsnd]

/-- Label-to-raw lookup succeeds exactly on registered pairs, once the
labels of the group are pairwise distinct. -/
theorem BitGroup.findRaw_eq_some (g : BitGroup) (hnd : (g.labels.map Prod.snd).Nodup)
    (r : Nat) (L : String) : g.findRaw L = some r ↔ (r, L) ∈ g.labels := by
  constructor
  · intro h
    rw [BitGroup.findRaw] at h
    rcases Option.map_eq_some'.mp h with ⟨p, hp, hfst⟩
    have hmem := List.mem_of_find?_eq_some hp
    have hsnd : p.2 = L := by simpa using List.find?_some hp
    rw [← hfst, ← hsnd]
    exact hmem
  · intro h
    rw [BitGroup.findRaw]
    have hsome : (g.labels.find? (fun p => p.2 == L)).isSome := by
      rw [List.find?_isSome]
      exact ⟨(r, L), h, by simp⟩
    rcases Option.isSome_iff_exists.mp hsome with ⟨p, hp⟩
    have hmem := List.mem_of_find?_eq_some hp
    have hsnd : p.2 = L := by simpa using List.find?_some hp
    have hfst : p.1 = r := val_unique hnd (hsnd ▸ hmem) h
    rw [hp]
    simp [hfst]

/-- Label-to-raw lookup fails exactly on unregistered labels. -/
theorem BitGroup.findRaw_eq_none (g : BitGroup) (L : String) :
    g.findRaw L = none ↔ L ∉ g.labels.map Prod.snd := by
  rw [BitGroup.findRaw, Option.map_eq_none', List.find?_eq_none]
  constructor
  · intro h hmem
    rcases List.mem_map.mp hmem with ⟨p, hp, hL⟩
    exact h p hp (by simp [hL])
  · intro h p hp hbeq
    exact h (List.mem_map.mpr ⟨p, hp, by simpa using hbeq⟩)

/-! Table-level lemmas. -/

/-- Labels of every single group are pairwise distinct once the labels of
the whole collection of groups are. -/
theorem snd_nodup_of_flatMap {gs : List BitGroup}
    (hnd : (gs.flatMap (fun g => g.labels.map Prod.snd)).Nodup)
    {g : BitGroup} (hg : g ∈ gs) : (g.labels.map Prod.snd).Nodup := by
  induction gs with
  | nil => cases hg
  | cons x xs ih =>
    rw [List.flatMap_cons] at hnd
    rcases List.mem_cons.mp hg with h | h
    · exact h ▸ hnd.of_append_left
    · exact ih hnd.of_append_right h

/-- Labels of every single group are pairwise distinct once the labels of
the whole table are. -/
theorem BitReader.group_snd_nodup {t : BitReader} (hnd : t.allLabels.Nodup)
    {g : BitGroup} (hg : g ∈ t.groups) : (g.labels.map Prod.snd).Nodup :=
  snd_nodup_of_flatMap hnd hg

/-- With all labels of a collection of groups pairwise distinct, a label
determines its group and its raw value. -/
theorem label_unique_of_flatMap {gs : List BitGroup}
    (hnd : (gs.flatMap (fun g => g.labels.map Prod.snd)).Nodup)
    {g g' : BitGroup} {r r' : Nat} {L : String}
    (hg : g ∈ gs) (h1 : (r, L) ∈ g.labels)
    (hg' : g' ∈ gs) (h2 : (r', L) ∈ g'.labels) : g = g' ∧ r = r' := by
  induction gs with
  | nil => cases hg
  | cons x xs ih =>
    rw [List.flatMap_cons] at hnd
    rcases List.mem_cons.mp hg with h | h <;> rcases List.mem_cons.mp hg' with h' | h'
    · subst h
      subst h'
      exact ⟨rfl, val_unique hnd.of_append_left h1 h2⟩
    · exfalso
      apply List.disjoint_of_nodup_append hnd (List.mem_map.mpr ⟨(r, L), h ▸ h1, rfl⟩)
      exact List.mem_flatMap.mpr ⟨g', h', List.mem_map.mpr ⟨(r', L), h2, rfl⟩⟩
    · exfalso
      apply List.disjoint_of_nodup_append hnd (List.mem_map.mpr ⟨(r', L), h' ▸ h2, rfl⟩)
      exact List.mem_flatMap.mpr ⟨g, h, List.mem_map.mpr ⟨(r, L), h1, rfl⟩⟩
    · exact ih hnd.of_append_right h h'

/-- Within a valid table a label determines its group and its raw value. -/
theorem BitReader.label_unique {t : BitReader} (hnd : t.allLabels.Nodup)
    {g g' : BitGroup} {r r' : Nat} {L : String}
    (hg : g ∈ t.groups) (h1 : (r, L) ∈ g.labels)
    (hg' : g' ∈ t.groups) (h2 : (r', L) ∈ g'.labels) : g = g' ∧ r = r' :=
  label_unique_of_flatMap hnd hg h1 hg' h2

/-- List-level direction of the table lookup: a registered pair is found. -/
theorem findSome?_label {gs : List BitGroup}
    (hnd : (gs.flatMap (fun g => g.labels.map Prod.snd)).Nodup)
    {g : BitGroup} {r : Nat} {L : String} (hg : g ∈ gs) (hmem : (r, L) ∈ g.labels) :
    gs.findSome? (fun g' => (g'.findRaw L).map (fun x => (g', x))) = some (g, r) := by
  induction gs with
  | nil => cases hg
  | cons x xs ih =>
    rw [List.flatMap_cons] at hnd
    rw [List.findSome?_cons]
    rcases List.mem_cons.mp hg with h | h
    · subst h
      have hf : g.findRaw L = some r := (g.findRaw_eq_some hnd.of_append_left r L).mpr hmem
      simp [hf]
    · have hnone : x.findRaw L = none := by
        rw [BitGroup.findRaw_eq_none]
        intro hLx
        apply List.disjoint_of_nodup_append hnd hLx
        exact List.mem_flatMap.mpr ⟨g, h, List.mem_map.mpr ⟨(r, L), hmem, rfl⟩⟩
      simp only [hnone, Option.map_none']
      exact ih hnd.of_append_right h

/-- Unpacking of the table lookup: in a valid table it succeeds exactly on
the pairs registered by some group. -/
theorem BitReader.findLabel_eq_some {t : BitReader} (hnd : t.allLabels.Nodup)
    {g : BitGroup} {r : Nat} {L : String} :
    t.findLabel L = some (g, r) ↔ g ∈ t.groups ∧ (r, L) ∈ g.labels := by
  constructor
  · intro h
    rw [BitReader.findLabel] at h
    rcases List.exists_of_findSome?_eq_some h with ⟨g', hg', hmap⟩
    rcases Option.map_eq_some'.mp hmap with ⟨r', hr', heq⟩
    have hgg : g' = g := (Prod.ext_iff.mp heq).1
    have hrr : r' = r := (Prod.ext_iff.mp heq).2
    subst hgg hrr
    exact ⟨hg', (g'.findRaw_eq_some (t.group_snd_nodup hnd hg') r' L).mp hr'⟩
  · intro ⟨hg, hmem⟩
    exact findSome?_label hnd hg hmem

/-- The table lookup fails exactly on unregistered labels. -/
theorem BitReader.findLabel_eq_none (t : BitReader) (L : String) :
    t.findLabel L = none ↔ L ∉ t.allLabels := by
  rw [BitReader.findLabel, List.findSome?_eq_none_iff, BitReader.allLabels]
  constructor
  · intro h hmem
    rcases List.mem_flatMap.mp hmem with ⟨g, hg, hLg⟩
    have := h g hg
    rw [Option.map_eq_none', BitGroup.findRaw_eq_none] at this
    exact this hLg
  · intro h g hg
    rw [Option.map_eq_none', BitGroup.findRaw_eq_none]
    intro hLg
    exact h (List.mem_flatMap.mpr ⟨g, hg, hLg⟩)

/-! Decode lemmas and accessors of the validity predicate. -/

/-- Membership in the raw decode list, unfolded. -/
theorem BitReader.mem_decodeRaw (t : BitReader) (v : Nat) (L : String) :
    L ∈ t.decodeRaw v ↔ ∃ g ∈ t.groups, g.rawLabel (g.extract v) = some L := by
  rw [BitReader.decodeRaw, List.mem_filterMap]

/-- Raw keys of a group of a valid table are pairwise distinct. -/
theorem BitReader.WF.fst_nodup {t : BitReader} (hwf : t.WF) {g : BitGroup}
    (hg : g ∈ t.groups) : (g.labels.map Prod.fst).Nodup :=
  (hwf.1 g hg).2.2.2

/-- Raw values registered in a valid table fit in their group. -/
theorem BitReader.WF.raw_lt {t : BitReader} (hwf : t.WF) {g : BitGroup}
    (hg : g ∈ t.groups) {r : Nat} {L : String} (hmem : (r, L) ∈ g.labels) :
    r < 2 ^ g.bit_length := by
  have h := (hwf.1 g hg).2.2.1 (r, L) hmem
  rw [BitGroup.mask, Nat.one_shiftLeft] at h
  have hpos : 0 < 2 ^ g.bit_length := Nat.pos_pow_of_pos _ (by omega)
  omega

/-- Groups of a valid table fit inside the total width. -/
theorem BitReader.WF.shift_len_le {t : BitReader} (hwf : t.WF) {g : BitGroup}
    (hg : g ∈ t.groups) : g.low + g.bit_length ≤ t.bit_length := by
  have h1 := (hwf.1 g hg).1
  have h2 := (hwf.1 g hg).2.1
  unfold BitGroup.bit_length
  omega

/-- Two distinct groups of a valid table occupy disjoint bit ranges. -/
theorem BitReader.WF.disj {t : BitReader} (hwf : t.WF) {g g' : BitGroup}
    (hg : g ∈ t.groups) (hg' : g' ∈ t.groups) (hne : g ≠ g') : g.Disj g' := by
  have hsymm : Symmetric BitGroup.Disj := by
    intro a b hab
    exact hab.symm
  exact hwf.2.1.forall hsymm hg hg' hne

/-- Central decode lemma: in a valid table a registered label is decoded
from a value exactly when the bits of its group hold its raw value. -/
theorem BitReader.decode_mem_iff {t : BitReader} (hwf : t.WF) {g : BitGroup}
    {r : Nat} {L : String} (hg : g ∈ t.groups) (hr : (r, L) ∈ g.labels) (v : Nat) :
    L ∈ t.decodeRaw v ↔ g.extract v = r := by
  rw [BitReader.mem_decodeRaw]
  constructor
  · intro ⟨g', hg', hraw⟩
    have hmem' := (g'.rawLabel_eq_some (hwf.fst_nodup hg') _ L).mp hraw
    rcases BitReader.label_unique hwf.2.2 hg' hmem' hg hr with ⟨hgg, hrr⟩
    subst hgg
    exact hrr ▸ rfl
  · intro h
    exact ⟨g, hg, (g.rawLabel_eq_some (hwf.fst_nodup hg) _ L).mpr (h ▸ hr)⟩

/-! Counting lemmas: how many values of the full range carry a given raw
value in a given bit field. -/

/-- Inserting a field does not change the remainder below it. -/
theorem insertF_mod (A B r k : Nat) (_hA : 0 < A) : insertF A B r k % A = k % A := by
  rw [insertF]
  have h : k % A + A * r + A * B * (k / A) = k % A + A * (r + B * (k / A)) := by ring
  rw [h, Nat.add_mul_mod_self_left, Nat.mod_mod_of_dvd k (dvd_refl A)]

/-- Quotient of an inserted field at its own position. -/
theorem insertF_div (A B r k : Nat) (hA : 0 < A) : insertF A B r k / A = r + B * (k / A) := by
  rw [insertF]
  have h : k % A + A * r + A * B * (k / A) = k % A + A * (r + B * (k / A)) := by ring
  rw [h, Nat.add_mul_div_left _ _ hA, Nat.div_eq_of_lt (Nat.mod_lt k hA), Nat.zero_add]

/-- The inserted field reads back as its value. -/
theorem insertF_field (A B r k : Nat) (hA : 0 < A) (hr : r < B) :
    insertF A B r k / A % B = r := by
  rw [insertF_div A B r k hA, Nat.add_mul_mod_self_left, Nat.mod_eq_of_lt hr]

/-- Inserting a field keeps the value inside the enlarged range. -/
theorem insertF_lt (A B C r k : Nat) (hA : 0 < A) (hr : r < B) (hk : k < A * C) :
    insertF A B r k < A * B * C := by
  have h1 : k % A < A := Nat.mod_lt k hA
  have h2 : k / A < C := Nat.div_lt_of_lt_mul hk
  apply Nat.lt_of_succ_le
  calc insertF A B r k + 1
      = (k % A + 1) + A * r + (A * B) * (k / A) := by rw [insertF]; ring
    _ ≤ A + A * r + (A * B) * (k / A) := by
        apply Nat.add_le_add_right (Nat.add_le_add_right (by omega) _)
    _ = A * (1 + r) + (A * B) * (k / A) := by ring
    _ ≤ A * B + (A * B) * (k / A) := by
        apply Nat.add_le_add_right (Nat.mul_le_mul_left A (by omega))
    _ = (A * B) * (1 + k / A) := by ring
    _ ≤ (A * B) * C := Nat.mul_le_mul_left (A * B) (by omega)
    _ = A * B * C := rfl

/-- Packing the bits around a field keeps the value inside the reduced
range. -/
theorem pack_lt (A B C v : Nat) (hA : 0 < A) (hv : v < A * B * C) :
    v % A + A * (v / (A * B)) < A * C := by
  have h1 : v % A < A := Nat.mod_lt v hA
  have h2 : v / (A * B) < C := Nat.div_lt_of_lt_mul hv
  apply Nat.lt_of_succ_le
  calc v % A + A * (v / (A * B)) + 1
      = (v % A + 1) + A * (v / (A * B)) := by ring
    _ ≤ A + A * (v / (A * B)) := Nat.add_le_add_right (by omega) _
    _ = A * (1 + v / (A * B)) := by ring
    _ ≤ A * C := Nat.mul_le_mul_left A (by omega)

/-- Reinserting the field of a value into its own packed remainder gives
back the value. -/
theorem insertF_pack (A B r v : Nat) (hA : 0 < A) (hv : v / A % B = r) :
    insertF A B r (v % A + A * (v / (A * B))) = v := by
  have hkmod : (v % A + A * (v / (A * B))) % A = v % A := by
    rw [Nat.add_mul_mod_self_left, Nat.mod_mod_of_dvd v (dvd_refl A)]
  have hkdiv : (v % A + A * (v / (A * B))) / A = v / (A * B) := by
    rw [Nat.add_mul_div_left _ _ hA, Nat.div_eq_of_lt (Nat.mod_lt v hA), Nat.zero_add]
  rw [insertF, hkmod, hkdiv]
  have h2 : B * (v / A / B) + v / A % B = v / A := Nat.div_add_mod (v / A) B
  rw [hv, Nat.div_div_eq_div_mul] at h2
  calc v % A + A * r + A * B * (v / (A * B))
      = A * (B * (v / (A * B)) + r) + v % A := by ring
    _ = A * (v / A) + v % A := by rw [h2]
    _ = v := Nat.div_add_mod v A

/-- Packing after inserting gives back the packed remainder. -/
theorem insertF_unpack (A B r k : Nat) (hA : 0 < A) (hr : r < B) :
    insertF A B r k % A + A * (insertF A B r k / (A * B)) = k := by
  have h1 : insertF A B r k % A = k % A := insertF_mod A B r k hA
  have hB : 0 < B := by omega
  have h2 : insertF A B r k / (A * B) = k / A := by
    rw [← Nat.div_div_eq_div_mul, insertF_div A B r k hA, Nat.add_mul_div_left _ _ hB,
      Nat.div_eq_of_lt hr, Nat.zero_add]
  rw [h1, h2]
  exact Nat.mod_add_div k A

/-- Core counting bijection: fixing one field of the range and keeping an
arbitrary further condition is the same as ranging over the packed
remaining bits with the condition transported. -/
theorem card_field (A B C r : Nat) (hA : 0 < A) (hr : r < B) (q : Nat → Bool) :
    ((Finset.range (A * B * C)).filter (fun v => v / A % B = r ∧ q v = true)).card
      = ((Finset.range (A * C)).filter (fun k => q (insertF A B r k) = true)).card := by
  apply Finset.card_bij' (fun v _ => v % A + A * (v / (A * B))) (fun k _ => insertF A B r k)
  · intro a ha
    rw [Finset.mem_filter, Finset.mem_range] at ha
    rcases ha with ⟨haR, haF, haQ⟩
    rw [Finset.mem_filter, Finset.mem_range]
    refine ⟨pack_lt A B C a hA haR, ?_⟩
    rw [insertF_pack A B r a hA haF]
    exact haQ
  · intro k hk
    rw [Finset.mem_filter, Finset.mem_range] at hk
    rcases hk with ⟨hkR, hkQ⟩
    rw [Finset.mem_filter, Finset.mem_range]
    exact ⟨insertF_lt A B C r k hA hr hkR, insertF_field A B r k hA hr, hkQ⟩
  · intro a ha
    rw [Finset.mem_filter] at ha
    exact insertF_pack A B r a hA ha.2.1
  · intro k hk
    exact insertF_unpack A B r k hA hr

/-- Count of the values of the range carrying a fixed field value. -/
theorem card_field_const (A B C r : Nat) (hA : 0 < A) (hr : r < B) :
    ((Finset.range (A * B * C)).filter (fun v => v / A % B = r)).card = A * C := by
  have h1 : (Finset.range (A * B * C)).filter (fun v => v / A % B = r)
      = (Finset.range (A * B * C)).filter
        (fun v => v / A % B = r ∧ (fun _ => true) v = true) := by
    apply Finset.filter_congr
    intro x _
    simp
  rw [h1, card_field A B C r hA hr]
  simp

/-- Bridge between the list filter of the executable operations and the
finset counting argument. -/
theorem length_filter_range (N : Nat) (p : Nat → Bool) :
    ((List.range N).filter p).length = ((Finset.range N).filter (fun v => p v = true)).card := by
  induction N with
  | zero => simp
  | succ n ih =>
    rw [List.range_succ, List.filter_append, List.length_append, ih, Finset.range_succ,
      Finset.filter_insert]
    by_cases h : p n = true
    · rw [if_pos h, Finset.card_insert_of_not_mem (fun hmem => by
        rw [Finset.mem_filter, Finset.mem_range] at hmem
        omega)]
      simp [h]
    · rw [if_neg h]
      simp [h]

/-- Count of the values of a power-of-two range with one fixed bit field. -/
theorem length_filter_field (w s n r : Nat) (hsn : s + n ≤ w) (hr : r < 2 ^ n) :
    ((List.range (2 ^ w)).filter (fun v => v / 2 ^ s % 2 ^ n == r)).length = 2 ^ (w - n) := by
  rw [length_filter_range]
  have hcongr : (Finset.range (2 ^ w)).filter (fun v => (v / 2 ^ s % 2 ^ n == r) = true)
      = (Finset.range (2 ^ w)).filter (fun v => v / 2 ^ s % 2 ^ n = r) := by
    apply Finset.filter_congr
    intro x _
    simp
  have hsplit : 2 ^ w = 2 ^ s * 2 ^ n * 2 ^ (w - s - n) := by
    rw [← pow_add, ← pow_add]
    congr 1
    omega
  rw [hcongr, hsplit, card_field_const _ _ _ _ (Nat.pos_pow_of_pos _ (by omega)) hr, ← pow_add]
  congr 1
  omega

/-- Inserting a field strictly above a low bit field does not change the
low field. -/
theorem insertF_low_bits (A B r k s n : Nat) (hA : 0 < A) (hsn : 2 ^ s * 2 ^ n ∣ A) :
    insertF A B r k / 2 ^ s % 2 ^ n = k / 2 ^ s % 2 ^ n := by
  have h1 : insertF A B r k % A = k % A := insertF_mod A B r k hA
  have key : ∀ x : Nat, x / 2 ^ s % 2 ^ n = x % (2 ^ s * 2 ^ n) / 2 ^ s := by
    intro x
    rw [Nat.mod_mul_right_div_self]
  rw [key, key, ← Nat.mod_mod_of_dvd (insertF A B r k) hsn, ← Nat.mod_mod_of_dvd k hsn, h1]

/-- Count of the values of a power-of-two range with two fixed disjoint
bit fields, the first one lying below the second one. -/
theorem length_filter_two_fields (w s1 n1 r1 s2 n2 r2 : Nat)
    (h12 : s1 + n1 ≤ s2) (h2w : s2 + n2 ≤ w) (hr1 : r1 < 2 ^ n1) (hr2 : r2 < 2 ^ n2) :
    ((List.range (2 ^ w)).filter
      (fun v => (v / 2 ^ s1 % 2 ^ n1 == r1) && (v / 2 ^ s2 % 2 ^ n2 == r2))).length
      = 2 ^ (w - n1 - n2) := by
  rw [length_filter_range]
  have hcongr : (Finset.range (2 ^ w)).filter
        (fun v => ((v / 2 ^ s1 % 2 ^ n1 == r1) && (v / 2 ^ s2 % 2 ^ n2 == r2)) = true)
      = (Finset.range (2 ^ w)).filter
        (fun v => v / 2 ^ s2 % 2 ^ n2 = r2 ∧ (fun u => u / 2 ^ s1 % 2 ^ n1 == r1) v = true) := by
    apply Finset.filter_congr
    intro x _
    simp [Bool.and_eq_true, and_comm]
  have hsplit : 2 ^ w = 2 ^ s2 * 2 ^ n2 * 2 ^ (w - s2 - n2) := by
    rw [← pow_add, ← pow_add]
    congr 1
    omega
  rw [hcongr, hsplit,
    card_field _ _ _ _ (Nat.pos_pow_of_pos _ (by omega)) hr2 (fun u => u / 2 ^ s1 % 2 ^ n1 == r1)]
  have hdvd : 2 ^ s1 * 2 ^ n1 ∣ 2 ^ s2 := by
    rw [← pow_add]
    exact pow_dvd_pow 2 h12
  have hcongr2 : (Finset.range (2 ^ s2 * 2 ^ (w - s2 - n2))).filter
        (fun k => (insertF (2 ^ s2) (2 ^ n2) r2 k / 2 ^ s1 % 2 ^ n1 == r1) = true)
      = (Finset.range (2 ^ s2 * 2 ^ (w - s2 - n2))).filter
        (fun k => k / 2 ^ s1 % 2 ^ n1 = r1) := by
    apply Finset.filter_congr
    intro x _
    rw [insertF_low_bits _ _ _ _ _ _ (Nat.pos_pow_of_pos _ (by omega)) hdvd]
    simp
  rw [hcongr2]
  have hsplit2 : 2 ^ s2 * 2 ^ (w - s2 - n2)
      = 2 ^ s1 * 2 ^ n1 * 2 ^ (w - n2 - s1 - n1) := by
    rw [← pow_add, ← pow_add, ← pow_add]
    congr 1
    omega
  rw [hsplit2, card_field_const _ _ _ _ (Nat.pos_pow_of_pos _ (by omega)) hr1, ← pow_add]
  congr 1
  omega

/-- Filtering the ascending range keeps it strictly ascending. -/
theorem sorted_filter_range (N : Nat) (p : Nat → Bool) :
    ((List.range N).filter p).Sorted (· < ·) :=
  (List.pairwise_lt_range N).filter p

/-- Membership in a filtered range. -/
theorem mem_filter_range (N : Nat) (p : Nat → Bool) (v : Nat) :
    v ∈ (List.range N).filter p ↔ v < N ∧ p v = true := by
  rw [List.mem_filter, List.mem_range]

/-! Unfolding helpers for the range-checked operations. -/

/-- The largest value, written as a power of two. -/
theorem BitReader.max_eq (t : BitReader) : t.max = 2 ^ t.bit_length - 1 := by
  rw [BitReader.max, Nat.one_shiftLeft]

/-- Range check in arithmetic form. -/
theorem BitReader.le_max_iff (t : BitReader) (v : Nat) :
    v ≤ t.max ↔ v < 2 ^ t.bit_length := by
  rw [BitReader.max_eq]
  have h : 0 < 2 ^ t.bit_length := Nat.pos_pow_of_pos _ (by omega)
  omega

/-- Unfolding of encodeOne on a successful lookup, with the filter read
arithmetically. -/
theorem BitReader.encodeOne_eq (t : BitReader) (L : String) (g : BitGroup) (r : Nat)
    (hf : t.findLabel L = some (g, r)) :
    t.encodeOne L = .ok ((List.range (2 ^ t.bit_length)).filter
      (fun v => v / 2 ^ g.low % 2 ^ g.bit_length == r)) := by
  simp only [BitReader.encodeOne, hf]
  rw [Nat.one_shiftLeft]
  congr 1
  apply List.filter_congr
  intro x _
  rw [BitGroup.extract_eq]

/-- Unfolding of encodeAnd on two successful lookups in distinct groups. -/
theorem BitReader.encodeAnd_eq (t : BitReader) (a b : String) (ga gb : BitGroup)
    (ra rb : Nat) (hfa : t.findLabel a = some (ga, ra)) (hfb : t.findLabel b = some (gb, rb))
    (hne : ga ≠ gb) :
    t.encodeAnd a b = .ok ((List.range (2 ^ t.bit_length)).filter
      (fun v => (v / 2 ^ ga.low % 2 ^ ga.bit_length == ra)
        && (v / 2 ^ gb.low % 2 ^ gb.bit_length == rb))) := by
  simp only [BitReader.encodeAnd, hfa, hfb]
  rw [if_neg (fun h => hne h.1), Nat.one_shiftLeft]
  congr 1
  apply List.filter_congr
  intro x _
  rw [BitGroup.extract_eq, BitGroup.extract_eq]

/-- Length of the fueled base-two digit rendering: with sufficient fuel a
positive value takes its floor base-two logarithm plus one characters, on
top of the accumulator. -/
theorem toDigitsCore_len (fuel : Nat) : ∀ n : Nat, ∀ ds : List Char, 0 < n → n < 2 ^ fuel →
    (Nat.toDigitsCore 2 fuel n ds).length = Nat.log2 n + 1 + ds.length := by
  induction fuel with
  | zero =>
    intro n ds hpos hlt
    omega
  | succ f ih =>
    intro n ds hpos hlt
    rw [Nat.toDigitsCore]
    by_cases h2 : n / 2 = 0
    · have hn1 : n < 2 := by omega
      have hlog : Nat.log2 n = 0 := by
        rw [Nat.log2]
        simp [Nat.not_le.mpr hn1]
      simp [h2, hlog]
      omega
    · have hge : 2 ≤ n := by omega
      have hlog : Nat.log2 n = Nat.log2 (n / 2) + 1 := by
        rw [Nat.log2]
        simp [hge]
      have hlt2 : n / 2 < 2 ^ f := by
        have hp : 2 ^ (f + 1) = 2 ^ f * 2 := by rw [pow_succ]
        omega
      simp only [h2, if_false]
      rw [ih (n / 2) _ (by omega) hlt2]
      simp [hlog]
      omega

/-- Length of the base-two rendering of a positive value. -/
theorem toDigits_len (n : Nat) (hn : 0 < n) :
    (Nat.toDigits 2 n).length = Nat.log2 n + 1 := by
  rw [Nat.toDigits]
  have h : n < 2 ^ (n + 1) := lt_of_lt_of_le (Nat.lt_two_pow n)
    (Nat.pow_le_pow_right (by omega) (by omega))
  rw [toDigitsCore_len (n + 1) n [] hn h]
  rfl

/-- Mapping over a successful result. -/
theorem except_map_ok {ε α β : Type} (f : α → β) (x : α) :
    Except.map f (Except.ok x : Except ε α) = .ok (f x) := rfl

/-! The claims. -/

/-- C1: for every constructed codec table and every value v in the range,
decode v contains the label of a group exactly when the shifted and masked
bits of that group equal the raw value of the label; on the 16-bit example
table decode 204 yields exactly clear, shadow and high. -/
theorem claim_C1_decode_bits (t : BitReader) (v : Nat) (g : BitGroup) (r : Nat) (L : String)
    (hwf : t.WF) (hg : g ∈ t.groups) (hr : (r, L) ∈ g.labels) (hv : v ≤ t.max) :
    t.decode v = .ok (t.decodeRaw v) ∧
    (L ∈ t.decodeRaw v ↔ g.extract v = r) ∧
    mod09.decode 204 = .ok ["clear", "shadow", "high"] := by
  refine ⟨?_, BitReader.decode_mem_iff hwf hg hr v, by decide⟩
  rw [BitReader.decode, if_pos hv]

/-- Witness for C1 on the example table: the label clear of the group of
bits 0 to 1 with raw value 0, at the decoded value 204. -/
theorem claim_C1_witness :
    mod09.decode 204 = .ok (mod09.decodeRaw 204) ∧
    ("clear" ∈ mod09.decodeRaw 204 ↔ g01.extract 204 = 0) ∧
    mod09.decode 204 = .ok ["clear", "shadow", "high"] :=
  claim_C1_decode_bits mod09 204 g01 0 "clear" (by decide) (by decide) (by decide) (by decide)

/-- C2: for every registered label with raw value r and shift amount s,
encode returns the single integer r left-shifted by s, every other group
reading zero from it; on the example table encode shadow is 4, encode
clear is 0 and encode no_shadow is 0. -/
theorem claim_C2_encode_exclusive (t : BitReader) (L : String) (g : BitGroup) (r : Nat)
    (hwf : t.WF) (hf : t.findLabel L = some (g, r)) :
    t.encode L = .ok (r <<< g.low) ∧
    (∀ g' ∈ t.groups, g' ≠ g → g'.extract (r <<< g.low) = 0) ∧
    mod09.encode "shadow" = .ok 4 ∧ mod09.encode "clear" = .ok 0 ∧
    mod09.encode "no_shadow" = .ok 0 := by
  obtain ⟨hg, hmem⟩ := (BitReader.findLabel_eq_some hwf.2.2).mp hf
  refine ⟨?_, ?_, by decide, by decide, by decide⟩
  · simp only [BitReader.encode, hf]
  · intro g' hg' hne
    exact BitGroup.extract_shift_disjoint g g' r (hwf.raw_lt hg hmem) (hwf.1 g hg).1
      (hwf.1 g' hg').1 (hwf.disj hg hg' (fun h => hne h.symm))

/-- Witness for C2 on the example table: the label shadow, found in the
single-bit group at bit 2 with raw value 1. -/
theorem claim_C2_witness :
    mod09.encode "shadow" = .ok (1 <<< g2.low) ∧
    (∀ g' ∈ mod09.groups, g' ≠ g2 → g'.extract (1 <<< g2.low) = 0) ∧
    mod09.encode "shadow" = .ok 4 ∧ mod09.encode "clear" = .ok 0 ∧
    mod09.encode "no_shadow" = .ok 0 :=
  claim_C2_encode_exclusive mod09 "shadow" g2 1 (by decide) (by decide)

/-- C3: for every registered label whose group holds n bits in a table of
width w, encodeOne returns an ascending list of exactly two to the power
w - n elements, precisely the integers of the range whose group bits equal
the raw value of the label; on the example table encodeOne shadow has
32768 elements and begins 4, 5, 6, 7, 12, 13, 14, 15. -/
theorem claim_C3_encodeAll (t : BitReader) (L : String) (g : BitGroup) (r : Nat)
    (hwf : t.WF) (hf : t.findLabel L = some (g, r)) :
    ∃ l, t.encodeOne L = .ok l ∧
      l.Sorted (· < ·) ∧
      l.length = 2 ^ (t.bit_length - g.bit_length) ∧
      (∀ v, v ∈ l ↔ v < 2 ^ t.bit_length ∧ g.extract v = r) ∧
      (∀ v, v ≤ t.max → (v ∈ l ↔ L ∈ t.decodeRaw v)) ∧
      (mod09.encodeOne "shadow").map List.length = .ok 32768 ∧
      (mod09.encodeOne "shadow").map (List.take 8) = .ok [4, 5, 6, 7, 12, 13, 14, 15] := by
  obtain ⟨hg, hmem⟩ := (BitReader.findLabel_eq_some hwf.2.2).mp hf
  have hr' : r < 2 ^ g.bit_length := hwf.raw_lt hg hmem
  have hsn : g.low + g.bit_length ≤ t.bit_length := hwf.shift_len_le hg
  refine ⟨_, t.encodeOne_eq L g r hf, sorted_filter_range _ _,
    length_filter_field _ _ _ _ hsn hr', ?_, ?_, ?_, ?_⟩
  · intro v
    rw [mem_filter_range, BitGroup.extract_eq]
    simp
  · intro v hv
    rw [mem_filter_range, BitReader.decode_mem_iff hwf hg hmem v, BitGroup.extract_eq]
    simp [(t.le_max_iff v).mp hv]
  · rw [mod09.encodeOne_eq "shadow" g2 1 (by decide), except_map_ok,
      length_filter_field mod09.bit_length g2.low g2.bit_length 1 (by decide) (by decide)]
    decide
  · rw [mod09.encodeOne_eq "shadow" g2 1 (by decide), except_map_ok,
      show (2 ^ mod09.bit_length : Nat) = 32 + 65504 by decide,
      List.range_add, List.filter_append,
      show (List.range 32).filter (fun v => v / 2 ^ g2.low % 2 ^ g2.bit_length == 1)
        = [4, 5, 6, 7, 12, 13, 14, 15, 20, 21, 22, 23, 28, 29, 30, 31] by decide,
      List.take_append_of_le_length (by norm_num)]
    decide

/-- Witness for C3 on the example table: the label shadow, found in the
single-bit group at bit 2 with raw value 1. -/
theorem claim_C3_witness :
    ∃ l, mod09.encodeOne "shadow" = .ok l ∧
      l.Sorted (· < ·) ∧
      l.length = 2 ^ (mod09.bit_length - g2.bit_length) ∧
      (∀ v, v ∈ l ↔ v < 2 ^ mod09.bit_length ∧ g2.extract v = 1) ∧
      (∀ v, v ≤ mod09.max → (v ∈ l ↔ "shadow" ∈ mod09.decodeRaw v)) ∧
      (mod09.encodeOne "shadow").map List.length = .ok 32768 ∧
      (mod09.encodeOne "shadow").map (List.take 8) = .ok [4, 5, 6, 7, 12, 13, 14, 15] :=
  claim_C3_encodeAll mod09 "shadow" g2 1 (by decide) (by decide)

/-- C4: for two registered labels in distinct disjoint groups, encodeAnd
returns an ascending list of exactly the integers of the range matching
both raw values at once, of length two to the power of the width minus
both group lengths; on the example table encodeAnd cloud shadow begins
5, 13, 21, 29 and has 8192 elements. -/
theorem claim_C4_encodeIntersection (t : BitReader) (a b : String) (ga gb : BitGroup)
    (ra rb : Nat) (hwf : t.WF) (hfa : t.findLabel a = some (ga, ra))
    (hfb : t.findLabel b = some (gb, rb)) (hne : ga ≠ gb) :
    ∃ l, t.encodeAnd a b = .ok l ∧
      l.Sorted (· < ·) ∧
      (∀ v, v ∈ l ↔ v < 2 ^ t.bit_length ∧ ga.extract v = ra ∧ gb.extract v = rb) ∧
      l.length = 2 ^ (t.bit_length - ga.bit_length - gb.bit_length) ∧
      (mod09.encodeAnd "cloud" "shadow").map (List.take 4) = .ok [5, 13, 21, 29] ∧
      (mod09.encodeAnd "cloud" "shadow").map List.length = .ok 8192 := by
  obtain ⟨hga, hmema⟩ := (BitReader.findLabel_eq_some hwf.2.2).mp hfa
  obtain ⟨hgb, hmemb⟩ := (BitReader.findLabel_eq_some hwf.2.2).mp hfb
  have hra : ra < 2 ^ ga.bit_length := hwf.raw_lt hga hmema
  have hrb : rb < 2 ^ gb.bit_length := hwf.raw_lt hgb hmemb
  have hsa : ga.low + ga.bit_length ≤ t.bit_length := hwf.shift_len_le hga
  have hsb : gb.low + gb.bit_length ≤ t.bit_length := hwf.shift_len_le hgb
  have hla : ga.low ≤ ga.high := (hwf.1 ga hga).1
  have hlb : gb.low ≤ gb.high := (hwf.1 gb hgb).1
  have hdisj : ga.Disj gb := hwf.disj hga hgb hne
  refine ⟨_, t.encodeAnd_eq a b ga gb ra rb hfa hfb hne, sorted_filter_range _ _, ?_, ?_, ?_, ?_⟩
  · intro v
    rw [mem_filter_range, BitGroup.extract_eq, BitGroup.extract_eq]
    simp [Bool.and_eq_true, and_assoc]
  · rcases hdisj with hlow | hlow
    · exact length_filter_two_fields t.bit_length ga.low ga.bit_length ra
        gb.low gb.bit_length rb (by unfold BitGroup.bit_length; omega) hsb hra hrb
    · rw [List.filter_congr (fun x _ => Bool.and_comm _ _),
        length_filter_two_fields t.bit_length gb.low gb.bit_length rb
          ga.low ga.bit_length ra (by unfold BitGroup.bit_length; omega) hsa hrb hra]
      congr 1
      omega
  · rw [mod09.encodeAnd_eq "cloud" "shadow" g01 g2 1 1 (by decide) (by decide) (by decide),
      except_map_ok,
      show (2 ^ mod09.bit_length : Nat) = 32 + 65504 by decide,
      List.range_add, List.filter_append,
      show (List.range 32).filter (fun v => (v / 2 ^ g01.low % 2 ^ g01.bit_length == 1)
          && (v / 2 ^ g2.low % 2 ^ g2.bit_length == 1))
        = [5, 13, 21, 29] by decide,
      List.take_append_of_le_length (by norm_num)]
    decide
  · rw [mod09.encodeAnd_eq "cloud" "shadow" g01 g2 1 1 (by decide) (by decide) (by decide),
      except_map_ok,
      length_filter_two_fields mod09.bit_length g01.low g01.bit_length 1
        g2.low g2.bit_length 1 (by decide) (by decide) (by decide) (by decide)]
    decide

/-- Witness for C4 on the example table: the labels cloud and shadow in
the disjoint groups at bits 0 to 1 and at bit 2. -/
theorem claim_C4_witness :
    ∃ l, mod09.encodeAnd "cloud" "shadow" = .ok l ∧
      l.Sorted (· < ·) ∧
      (∀ v, v ∈ l ↔ v < 2 ^ mod09.bit_length ∧ g01.extract v = 1 ∧ g2.extract v = 1) ∧
      l.length = 2 ^ (mod09.bit_length - g01.bit_length - g2.bit_length) ∧
      (mod09.encodeAnd "cloud" "shadow").map (List.take 4) = .ok [5, 13, 21, 29] ∧
      (mod09.encodeAnd "cloud" "shadow").map List.length = .ok 8192 :=
  claim_C4_encodeIntersection mod09 "cloud" "shadow" g01 g2 1 1
    (by decide) (by decide) (by decide) (by decide)

/-- C5: for every value in range and every registered label, matchValue
agrees with membership of the label in the decoded set; on the example
table match of 204 with cloud is false and with shadow is true. -/
theorem claim_C5_match_decode (t : BitReader) (v : Nat) (L : String) (g : BitGroup) (r : Nat)
    (hwf : t.WF) (hf : t.findLabel L = some (g, r)) (hv : v ≤ t.max) :
    (∃ bo, t.matchValue v L = .ok bo ∧ (bo = true ↔ L ∈ t.decodeRaw v)) ∧
    mod09.matchValue 204 "cloud" = .ok false ∧
    mod09.matchValue 204 "shadow" = .ok true := by
  obtain ⟨hg, hmem⟩ := (BitReader.findLabel_eq_some hwf.2.2).mp hf
  refine ⟨⟨g.extract v == r, ?_, ?_⟩, by decide, by decide⟩
  · simp only [BitReader.matchValue, hf]
    rw [if_pos hv]
  · rw [BitReader.decode_mem_iff hwf hg hmem v]
    simp

/-- Witness for C5 on the example table: the label cloud at value 204. -/
theorem claim_C5_witness :
    (∃ bo, mod09.matchValue 204 "cloud" = .ok bo ∧
      (bo = true ↔ "cloud" ∈ mod09.decodeRaw 204)) ∧
    mod09.matchValue 204 "cloud" = .ok false ∧
    mod09.matchValue 204 "shadow" = .ok true :=
  claim_C5_match_decode mod09 204 "cloud" g01 1 (by decide) (by decide) (by decide)

/-- C6 as stated fails on the recorded behaviour: the notebook prints the
rendering of 204 on the 16-bit reader as the eight characters 11001100,
whose length is 8 and not the total bit width 16. -/
theorem claim_C6_counterexample :
    mod09.getBin 204 = .ok "11001100" ∧ ("11001100" : String).length ≠ mod09.bit_length := by
  constructor
  · decide
  · decide

/-- C6 amended: getBin renders a value of the range as its minimal binary
form, most significant bit first and with no zero padding: for a positive
value the length of the string is the floor base-two logarithm plus one,
which never exceeds the bit width but in general falls short of it, as at
value 204 where the string is 11001100 of length 8. -/
theorem claim_C6_amended (t : BitReader) (v : Nat) (hv : v ≤ t.max) (hpos : 0 < v) :
    t.getBin v = .ok ⟨Nat.toDigits 2 v⟩ ∧
    (∀ s, t.getBin v = .ok s → s.length = Nat.log2 v + 1 ∧ s.length ≤ t.bit_length) ∧
    mod09.getBin 204 = .ok "11001100" ∧ ("11001100" : String).length = 8 := by
  have hok : t.getBin v = .ok ⟨Nat.toDigits 2 v⟩ := by
    rw [BitReader.getBin, if_pos hv]
  refine ⟨hok, ?_, by decide, by decide⟩
  intro s hs
  rw [hok] at hs
  have hsv : s = ⟨Nat.toDigits 2 v⟩ := by
    cases hs
    rfl
  have hlen : s.length = Nat.log2 v + 1 := by
    rw [hsv]
    show (Nat.toDigits 2 v).length = Nat.log2 v + 1
    exact toDigits_len v hpos
  refine ⟨hlen, ?_⟩
  rw [hlen]
  have hvlt : v < 2 ^ t.bit_length := (t.le_max_iff v).mp hv
  have := (Nat.log2_lt (by omega)).mpr hvlt
  omega

/-- Witness for C6 amended, at value 204 of the example table. -/
theorem claim_C6_amended_witness :
    mod09.getBin 204 = .ok ⟨Nat.toDigits 2 204⟩ ∧
    (∀ s, mod09.getBin 204 = .ok s → s.length = Nat.log2 204 + 1 ∧
      s.length ≤ mod09.bit_length) ∧
    mod09.getBin 204 = .ok "11001100" ∧ ("11001100" : String).length = 8 :=
  claim_C6_amended mod09 204 (by decide) (by decide)

/-- C7: decoding the exclusive encoding of any registered label yields a
set containing that label. -/
theorem claim_C7_round_trip (t : BitReader) (L : String) (g : BitGroup) (r : Nat)
    (hwf : t.WF) (hf : t.findLabel L = some (g, r)) :
    ∃ x l, t.encode L = .ok x ∧ t.decode x = .ok l ∧ L ∈ l := by
  obtain ⟨hg, hmem⟩ := (BitReader.findLabel_eq_some hwf.2.2).mp hf
  have hr' : r < 2 ^ g.bit_length := hwf.raw_lt hg hmem
  have hsn : g.low + g.bit_length ≤ t.bit_length := hwf.shift_len_le hg
  have hxmax : r <<< g.low ≤ t.max := by
    rw [Nat.shiftLeft_eq, BitReader.max_eq]
    have h1 : r * 2 ^ g.low < 2 ^ g.bit_length * 2 ^ g.low :=
      Nat.mul_lt_mul_of_lt_of_le hr' (Nat.le_refl _) (Nat.pos_pow_of_pos _ (by omega))
    have h2 : 2 ^ g.bit_length * 2 ^ g.low ≤ 2 ^ t.bit_length := by
      rw [← pow_add]
      exact Nat.pow_le_pow_right (by omega) (by omega)
    omega
  refine ⟨r <<< g.low, t.decodeRaw (r <<< g.low), ?_, ?_, ?_⟩
  · simp only [BitReader.encode, hf]
  · rw [BitReader.decode, if_pos hxmax]
  · rw [BitReader.decode_mem_iff hwf hg hmem]
    exact BitGroup.extract_shift_self g r hr'

/-- Witness for C7 on the example table with the label high. -/
theorem claim_C7_witness :
    ∃ x l, mod09.encode "high" = .ok x ∧ mod09.decode x = .ok l ∧ "high" ∈ l :=
  claim_C7_round_trip mod09 "high" g67 3 (by decide) (by decide)

/-- C8: encode, encodeOne, matchValue and encodeAnd fail with the unknown
label error exactly when handed a label that was never registered; in
particular encoding the label nonexistent on the example table fails so. -/
theorem claim_C8_unknown_label (t : BitReader) (L a b : String) (v : Nat) :
    (t.encode L = .error .unknownLabel ↔ L ∉ t.allLabels) ∧
    (t.encodeOne L = .error .unknownLabel ↔ L ∉ t.allLabels) ∧
    (t.matchValue v L = .error .unknownLabel ↔ L ∉ t.allLabels) ∧
    (t.encodeAnd a b = .error .unknownLabel ↔ (a ∉ t.allLabels ∨ b ∉ t.allLabels)) ∧
    mod09.encode "nonexistent" = .error .unknownLabel := by
  have hiff : ∀ M : String, t.findLabel M = none ↔ M ∉ t.allLabels := fun M =>
    t.findLabel_eq_none M
  refine ⟨?_, ?_, ?_, ?_, by decide⟩
  · rw [← hiff L]
    cases h : t.findLabel L with
    | none => simp [BitReader.encode, h]
    | some p => simp [BitReader.encode, h]
  · rw [← hiff L]
    cases h : t.findLabel L with
    | none => simp [BitReader.encodeOne, h]
    | some p => simp [BitReader.encodeOne, h]
  · rw [← hiff L]
    cases h : t.findLabel L with
    | none => simp [BitReader.matchValue, h]
    | some p =>
      simp only [BitReader.matchValue, h]
      by_cases hv : v ≤ t.max
      · simp [hv]
      · simp [hv]
  · rw [← hiff a, ← hiff b]
    cases ha : t.findLabel a with
    | none => simp [BitReader.encodeAnd, ha]
    | some pa =>
      cases hb : t.findLabel b with
      | none => simp [BitReader.encodeAnd, ha, hb]
      | some pb =>
        simp only [BitReader.encodeAnd, ha, hb]
        by_cases hc : pa.1 = pb.1 ∧ pa.2 ≠ pb.2
        · simp [hc]
        · simp [hc]

/-- C9: construction precomputes for every group the bit length, the left
shift and per label the raw value, exposed as the info table; on the
example table shadow maps to bit length 1, shift 2, raw 1, clear to 2, 0,
0 and high to 2, 6, 3, with the other labels analogous. -/
theorem claim_C9_info (t : BitReader) (g : BitGroup) (r : Nat) (L : String)
    (hg : g ∈ t.groups) (hr : (r, L) ∈ g.labels) :
    (L, g.high - g.low + 1, g.low, r) ∈ t.info ∧
    mod09.info = [("clear", 2, 0, 0), ("cloud", 2, 0, 1), ("mix", 2, 0, 2),
      ("no_shadow", 1, 2, 0), ("shadow", 1, 2, 1), ("climatology", 2, 6, 0),
      ("low", 2, 6, 1), ("average", 2, 6, 2), ("high", 2, 6, 3)] := by
  refine ⟨?_, by decide⟩
  rw [BitReader.info]
  exact List.mem_flatMap.mpr ⟨g, hg, List.mem_map.mpr ⟨(r, L), hr, rfl⟩⟩

/-- Witness for C9 on the example table: the label shadow in the group at
bit 2 with raw value 1. -/
theorem claim_C9_witness :
    ("shadow", g2.high - g2.low + 1, g2.low, 1) ∈ mod09.info ∧
    mod09.info = [("clear", 2, 0, 0), ("cloud", 2, 0, 1), ("mix", 2, 0, 2),
      ("no_shadow", 1, 2, 0), ("shadow", 1, 2, 1), ("climatology", 2, 6, 0),
      ("low", 2, 6, 1), ("average", 2, 6, 2), ("high", 2, 6, 3)] :=
  claim_C9_info mod09 g2 1 "shadow" (by decide) (by decide)

/-- C10: decode returns an ordered list, the labels appearing in the order
of the bit positions of their groups, least significant group first, for a
table whose groups are listed in ascending bit position as the example
table is; on the example table decode 204 returns exactly the list clear,
shadow, high in that order. -/
theorem claim_C10_decode_order (t : BitReader) (v : Nat) (hwf : t.WF)
    (hasc : t.groups.Pairwise (fun gl gh => gl.high < gh.low)) :
    t.decodeRaw v = (t.decodePairs v).map Prod.snd ∧
    (t.decodePairs v).Pairwise (fun p q => p.1 < q.1) ∧
    mod09.decodeRaw 204 = ["clear", "shadow", "high"] := by
  refine ⟨?_, ?_, by decide⟩
  · rw [BitReader.decodeRaw, BitReader.decodePairs, List.map_filterMap]
    congr 1
    funext g
    cases h : g.rawLabel (g.extract v) <;> simp [h]
  · rw [BitReader.decodePairs, List.pairwise_filterMap]
    refine hasc.imp_of_mem ?_
    intro a b ha hb hR x hx y hy
    rcases Option.map_eq_some'.mp (Option.mem_def.mp hx) with ⟨La, _, hxa⟩
    rcases Option.map_eq_some'.mp (Option.mem_def.mp hy) with ⟨Lb, _, hyb⟩
    rw [← hxa, ← hyb]
    have hlowa : a.low ≤ a.high := (hwf.1 a ha).1
    show a.low < b.low
    omega

/-- Witness for C10 on the example table at value 204. -/
theorem claim_C10_witness :
    mod09.decodeRaw 204 = (mod09.decodePairs 204).map Prod.snd ∧
    (mod09.decodePairs 204).Pairwise (fun p q => p.1 < q.1) ∧
    mod09.decodeRaw 204 = ["clear", "shadow", "high"] :=
  claim_C10_decode_order mod09 204 (by decide) (by decide)

end Geetools
